import Mathlib

/-!
Shallow embedding of the jquery-mvc pub/sub core and module system
(`src/jquery.mvc.js`, `src/src/jquery.mvc.view.js`), with theorems checking
the natural-language specification against the code.

Conventions of the embedding:
- JavaScript objects used as string-keyed maps become association lists
  `List (String × _)`; a missing key is `none` on lookup.
- Function objects are identified by a numeric id (`ℕ`): two function
  values are the same underlying function exactly when their ids agree.
- Observer contexts and notification bodies are numbers; only their
  (decidable) equality matters to the code under study.
-/

namespace JQueryMvc

/-- An observer as built by `$.mvc.Observer(fn, context)`: a handler
function id plus the context object it is bound to. -/
structure Observer where
  fn : ℕ
  context : ℕ
  deriving DecidableEq, Repr

/-- A notification as built by `$.mvc.Notification(name, body)`. -/
structure Notification where
  name : String
  body : ℕ
  deriving DecidableEq, Repr

/-- The notifier's observer registry (`observerMap` in
`jquery.mvc.notifier.js`): an association from notification names to the
array of registered observers. -/
abbrev Registry := List (String × List Observer)

/-- Key lookup on an association list (JavaScript `map[ key ]`,
`undefined` becoming `none`). -/
def lookupA {α : Type} (r : List (String × α)) (k : String) : Option α :=
  (r.find? (fun p => p.1 == k)).map (·.2)

/-- Replace the value stored under a key that is present. -/
def setA {α : Type} (r : List (String × α)) (k : String) (v : α) :
    List (String × α) :=
  r.map (fun p => if p.1 == k then (p.1, v) else p)

/-- Delete a key (JavaScript `delete map[ key ]`). -/
def eraseA {α : Type} (r : List (String × α)) (k : String) :
    List (String × α) :=
  r.filter (fun p => !(p.1 == k))

/-- `$.mvc.notifier.register( notificationName, observer )`: push the
observer onto the existing array, or create a fresh one-element array. -/
def register (r : Registry) (e : String) (o : Observer) : Registry :=
  match lookupA r e with
  | some obs => setA r e (obs ++ [o])
  | none => r ++ [(e, [o])]

/-- The loop body of `$.mvc.notifier.remove`: the swap-from-the-end
compaction over the observers array.  `l` is the array, `i` the loop
index, `n` the current logical length.  On a context match the last
live element is swapped into slot `i` and both `n` and (net of the
`++i`) `i` stay put; otherwise `i` advances.  The extra `fuel`
argument makes the `for`-loop's termination measure `n - i` explicit;
any `fuel ≥ n - i` (the caller passes the array length) makes the
function agree with the loop. -/
def removeLoop (ctx : ℕ) : ℕ → List Observer → ℕ → ℕ → List Observer × ℕ
  | 0, l, _, n => (l, n)
  | fuel + 1, l, i, n =>
    if i < n then
      match l[i]? with
      | some o =>
        if o.context = ctx then
          removeLoop ctx fuel (l.set i (l.getD (n - 1) o)) i (n - 1)
        else
          removeLoop ctx fuel l (i + 1) n
      | none => (l, n)
    else
      (l, n)

/-- `$.mvc.notifier.remove( notificationName, context )` restricted to one
observers array: run the compaction loop, then either delete the key
(`none`) when emptied or truncate the array to the live length. -/
def removeObs (ctx : ℕ) (l : List Observer) : Option (List Observer) :=
  let p := removeLoop ctx l.length l 0 l.length
  if p.2 = 0 then none else some (p.1.take p.2)

/-- `$.mvc.notifier.remove( notificationName, context )` on the registry:
a missing key is left alone; an emptied array deletes the key. -/
def removeReg (r : Registry) (e : String) (ctx : ℕ) : Registry :=
  match lookupA r e with
  | none => r
  | some obs =>
    match removeObs ctx obs with
    | none => eraseA r e
    | some obs' => setA r e obs'

/-- `has` on the observer registry: key membership (`map[k] !== undefined`). -/
def hasReg (r : Registry) (e : String) : Bool :=
  (lookupA r e).isSome

/-- Register a whole list of observers for one notification name, in order. -/
def registerList (r : Registry) (e : String) (os : List Observer) : Registry :=
  os.foldl (fun acc o => register acc e o) r

/-- One registry operation: `$.mvc.notifier.register` or
`$.mvc.notifier.remove`. -/
inductive NOp where
  | reg (e : String) (o : Observer)
  | rem (e : String) (ctx : ℕ)
  deriving DecidableEq, Repr

/-- Apply one registry operation. -/
def applyNOp (r : Registry) : NOp → Registry
  | .reg e o => register r e o
  | .rem e ctx => removeReg r e ctx

/-- Apply a sequence of registry operations, oldest first. -/
def applyNOps (r : Registry) (ops : List NOp) : Registry :=
  ops.foldl applyNOp r

/-- The notifier's option hash (`$.mvc.notifier.options`). -/
structure NotifierOpts where
  maxSync : ℕ
  delay : ℕ
  deriving DecidableEq, Repr

/-- The defaults from the source: `maxSync: 5, delay: 10`. -/
def defaultOpts : NotifierOpts := { maxSync := 5, delay := 10 }

/-- The relevant process-wide notifier state: the observer registry and
the shared delivery task queue (`notificationQueue`).  A queued task
closure captures one observer and the notification it must deliver. -/
structure NotifierState where
  observerMap : Registry
  queue : List (Observer × Notification)
  deriving DecidableEq, Repr

/-- `$.mvc.notifier.notify( notification )`: a missing key is a no-op;
otherwise one delivery task per observer in `observers.slice()` (a
snapshot of the array at call time) is appended to the shared queue. -/
def notify (st : NotifierState) (ntf : Notification) : NotifierState :=
  match lookupA st.observerMap ntf.name with
  | none => st
  | some obs =>
    { st with queue := st.queue ++ obs.map (fun o => (o, ntf)) }

/-- Registry operations leave the task queue untouched (in the source,
`register` and `remove` only mutate `observerMap`). -/
def applyNOpState (st : NotifierState) (op : NOp) : NotifierState :=
  { st with observerMap := applyNOp st.observerMap op }

/-- Apply a sequence of registry operations to the notifier state. -/
def applyNOpsState (st : NotifierState) (ops : List NOp) : NotifierState :=
  ops.foldl applyNOpState st

/-- An observable scheduling event while the delivery queue drains:
a handler invocation (`observer.notify( notification )`) or a yield of
the thread (`setTimeout( next, o.delay )`). -/
inductive DEv where
  | invoke (o : Observer) (ntf : Notification)
  | yield
  deriving DecidableEq, Repr

/-- Drain the shared delivery queue.  Each task invokes its observer,
increments the process-wide `notificationSync` counter, and then either
yields and resets the counter (when the counter exceeds `maxSync`) or
continues synchronously with the next task. -/
def drain (opts : NotifierOpts) : ℕ → List (Observer × Notification) → List DEv
  | _, [] => []
  | sync, (o, ntf) :: ts =>
    .invoke o ntf ::
      (if sync + 1 > opts.maxSync then
        .yield :: drain opts 0 ts
      else
        drain opts (sync + 1) ts)

/-- The handler invocations occurring in a scheduling trace, in order. -/
def invocations (evs : List DEv) : List (Observer × Notification) :=
  evs.filterMap (fun e =>
    match e with
    | .invoke o ntf => some (o, ntf)
    | .yield => none)

/-- The lengths of the synchronous bursts of a scheduling trace: the
numbers of invocations between consecutive yields.  `c` counts the
invocations of the burst currently in progress. -/
def burstLens : List DEv → ℕ → List ℕ
  | [], c => [c]
  | .invoke _ _ :: evs, c => burstLens evs (c + 1)
  | .yield :: evs, c => c :: burstLens evs 0

/-!  The module derivation engine (`$.mvc.module`).  A prototype is an
association from keys to property values; a property value is either a
function object — identified by a numeric id, carrying its `__super`
property — or a plain data value. -/

/-- A value stored in a prototype: a function object (with id and
optional `__super` back-reference, both function ids) or plain data. -/
inductive PVal where
  | func (id : ℕ) (sup : Option ℕ)
  | data (d : ℕ)
  deriving DecidableEq, Repr

/-- A prototype object: keys to property values. -/
abbrev Proto := List (String × PVal)

/-- `$.isFunction`. -/
def isFunc : PVal → Bool
  | .func _ _ => true
  | .data _ => false

/-- Merge of prototypes as performed by `$.extend( true, baseObj, ... )`
at the level of property slots: entries of `b` win on key collision,
fresh keys of `b` are appended. -/
def mergeAssoc (a b : Proto) : Proto :=
  (a.map (fun p =>
    match lookupA b p.1 with
    | some v => (p.1, v)
    | none => p)) ++
  b.filter (fun p => (lookupA a p.1).isNone)

/-- The structural slots `$.mvc.module` writes onto the merged prototype:
`name`, `namespace`, `base` (data) and the fresh `constructor` function. -/
def structSlots (ctorId : ℕ) : Proto :=
  [("name", .data 0), ("namespace", .data 1), ("base", .data 2),
   ("constructor", .func ctorId none)]

/-- The merged prototype built by `$.mvc.module` before `__super` wiring:
base prototype slots, overwritten by the structural slots, overwritten
by the user's `proto` table. -/
def mvcMerged (baseP : Proto) (ctorId : ℕ) (proto : Proto) : Proto :=
  mergeAssoc (mergeAssoc baseP (structSlots ctorId)) proto

/-- The body of the `$.each` wiring loop for one entry: skip
`constructor`; otherwise, when the entry and the base prototype's
same-named slot are both functions and are not the same function object,
set the entry's `__super` property to the base function. -/
def wireEntry (baseP : Proto) (k : String) (v : PVal) : PVal :=
  if k == "constructor" then v
  else
    match v, lookupA baseP k with
    | .func id _, some (.func bid _) =>
      if id ≠ bid then .func id (some bid) else v
    | _, _ => v

/-- The `$.each` wiring loop over a whole prototype. -/
def wireSupers (proto baseP : Proto) : Proto :=
  proto.map (fun p => (p.1, wireEntry baseP p.1 p.2))

/-- `$.mvc.module( name, base, proto )` at the level of prototype slots:
merge, then wire `__super` back-references against the base prototype. -/
def mvcModule (baseP : Proto) (ctorId : ℕ) (proto : Proto) : Proto :=
  wireSupers (mvcMerged baseP ctorId proto) baseP

/-- The error raised by `$.mvc.Module.prototype._super` when the calling
function has no usable `__super` property. -/
inductive SuperErr where
  | noSuperImplementation
  deriving DecidableEq, Repr

/-- `$.mvc.Module.prototype._super`.  `sem` gives each function id its
behavior, `supOf` the `__super` property of each function object, and
`caller` is `arguments.callee.caller` (`none` when there is no calling
function).  On success the base function runs with the current instance
as receiver (`caller.__super.apply( this, arguments )`). -/
def superCall {I A R : Type} (sem : ℕ → I → A → R) (supOf : ℕ → Option ℕ)
    (caller : Option ℕ) (self : I) (args : A) : Except SuperErr R :=
  match caller with
  | some c =>
    match supOf c with
    | some b => .ok (sem b self args)
    | none => .error .noSuperImplementation
  | none => .error .noSuperImplementation

/-- The `new $.mvc.Notification( name, body )` path: a fresh instance
with the `name` and `body` fields assigned from the arguments. -/
def mkNotification (name : String) (body : ℕ) : Notification :=
  { name := name, body := body }

/-- `$.mvc.Notification` as actually called: when the receiver is not an
instance (a plain call without `new`), the guard re-enters through
`new $.mvc.Notification( name, body )`; otherwise the receiver's fields
are assigned. -/
def callNotification (instanceReceiver : Bool) (name : String) (body : ℕ) :
    Notification :=
  if instanceReceiver then { name := name, body := body }
  else mkNotification name body

/-- The `new $.mvc.Observer( fn, context )` path. -/
def mkObserver (fn : ℕ) (context : ℕ) : Observer :=
  { fn := fn, context := context }

/-- `$.mvc.Observer` as actually called, with the same plain-call guard
as `$.mvc.Notification`. -/
def callObserver (instanceReceiver : Bool) (fn : ℕ) (context : ℕ) : Observer :=
  if instanceReceiver then { fn := fn, context := context }
  else mkObserver fn context

/-!  The component caches (`$.mvc.model`, `$.mvc.view`).  For the removal
lifecycle only the cache map and the order of the performed steps
matter; instances are numeric ids. -/

/-- A component cache map (`proxyMap` / `mediatorMap`). -/
abbrev CacheMap := List (String × ℕ)

/-- `has( name )` on a component cache (`map[ name ] !== undefined`). -/
def hasCache (m : CacheMap) (k : String) : Bool :=
  (lookupA m k).isSome

/-- One observable step of `$.mvc.model.remove` / `$.mvc.view.remove`. -/
inductive CacheEv where
  | removeObserver (ntf : String)
  | deleteEntry (k : String)
  | callbackRemove (k : String)
  deriving DecidableEq, Repr

/-- The steps `$.mvc.model.remove` performs for a registered name:
delete the map entry, then invoke the instance's `_remove` callback.
An unregistered name performs nothing. -/
def modelRemoveEvs (m : CacheMap) (k : String) : List CacheEv :=
  match lookupA m k with
  | none => []
  | some _ => [.deleteEntry k, .callbackRemove k]

/-- The steps `$.mvc.view.remove` performs for a registered name: remove
the notifier observers for each notification interest, delete the map
entry, then invoke `_remove`. -/
def viewRemoveEvs (m : CacheMap) (interests : List String) (k : String) :
    List CacheEv :=
  match lookupA m k with
  | none => []
  | some _ =>
    interests.map (fun n => .removeObserver n) ++
      [.deleteEntry k, .callbackRemove k]

/-- Effect of one removal step on the cache map (observer removal
touches the notifier, not the cache map). -/
def applyCacheEv (m : CacheMap) : CacheEv → CacheMap
  | .deleteEntry k => eraseA m k
  | .removeObserver _ => m
  | .callbackRemove _ => m

/-- Run removal steps in order, pairing every step with the cache-map
state in which it executes. -/
def runCacheEvs (m : CacheMap) : List CacheEv → List (CacheEv × CacheMap)
  | [] => []
  | ev :: evs => (ev, m) :: runCacheEvs (applyCacheEv m ev) evs

/-!  A heap model for the configuration objects (`options`).  The module
code deep-copies options with `jQuery.extend( true, {}, ... )` at
derivation time (`$.mvc.module`) and again, merged with caller
overrides, at construction time (`_createModule`).  jQuery itself is
external to this repository; for plain configuration data (numbers and
plain objects, as in the spec's scenarios) its deep extend reads the
source object graphs and rebuilds the merged result from entirely fresh
objects, which is what we model: values are numbers or references into
a heap of objects, and the extend operation reads trees out of the heap
and allocates the merged tree at fresh addresses. -/

/-- A JavaScript value in a configuration object: a number or a
reference to a heap object. -/
inductive JVal where
  | num (n : ℕ)
  | ref (a : ℕ)
  deriving DecidableEq, Repr

/-- A heap object: fields mapping keys to values. -/
abbrev JObj := List (String × JVal)

/-- The heap: objects addressed by position. -/
abbrev Heap := List JObj

mutual
/-- A plain-data tree: what a configuration object graph denotes. -/
inductive JTree where
  | num (n : ℕ)
  | obj (fs : JFields)
  deriving DecidableEq, Repr
/-- Fields of a plain-data tree. -/
inductive JFields where
  | nil
  | cons (k : String) (t : JTree) (rest : JFields)
  deriving DecidableEq, Repr
end

/-- Field lookup on tree fields. -/
def getF : JFields → String → Option JTree
  | .nil, _ => none
  | .cons k t rest, key => if k == key then some t else getF rest key

/-- Field update (append when the key is new) on tree fields. -/
def setF : JFields → String → JTree → JFields
  | .nil, key, v => .cons key v .nil
  | .cons k t rest, key, v =>
    if k == key then .cons k v rest else .cons k t (setF rest key v)

mutual
/-- One key of a deep extend: a plain value is assigned; a nested object
is deep-extended onto the target's same-named object (or onto a fresh
empty object when the target has none), per `jQuery.extend( true, ... )`
on plain data. -/
def merge1 (fa : JFields) (k : String) : JTree → JFields
  | .num n => setF fa k (.num n)
  | .obj fs =>
    setF fa k (.obj (mergeFs
      (match getF fa k with
       | some (.obj g) => g
       | _ => .nil) fs))
/-- Deep extend of `fb`'s fields onto `fa`, key by key. -/
def mergeFs (fa : JFields) : JFields → JFields
  | .nil => fa
  | .cons k tv rest => mergeFs (merge1 fa k tv) rest
end

/-- Deep extend of one source tree onto a target tree; a non-object
source replaces the target. -/
def mergeT : JTree → JTree → JTree
  | .obj fa, .obj fb => .obj (mergeFs fa fb)
  | _, b => b

mutual
/-- Read the object graph under a value into a tree, also returning
every heap address dereferenced on the way.  `fuel` bounds the
recursion depth; any sufficiently large fuel succeeds on an acyclic
graph. -/
def readT (h : Heap) : ℕ → JVal → Option (JTree × List ℕ)
  | _, .num n => some (.num n, [])
  | 0, .ref _ => none
  | fuel + 1, .ref a =>
    match h[a]? with
    | none => none
    | some o =>
      match readFs h fuel o with
      | none => none
      | some (fs, addrs) => some (.obj fs, a :: addrs)
/-- Read an object's fields into tree fields. -/
def readFs (h : Heap) : ℕ → JObj → Option (JFields × List ℕ)
  | _, [] => some (.nil, [])
  | 0, _ :: _ => none
  | fuel + 1, (k, v) :: rest =>
    match readT h fuel v with
    | none => none
    | some (t, addrs1) =>
      match readFs h fuel rest with
      | none => none
      | some (fs, addrs2) => some (.cons k t fs, addrs1 ++ addrs2)
end

mutual
/-- Allocate a tree in the heap: children first, then the object itself
at the next fresh address. -/
def allocT (h : Heap) : JTree → JVal × Heap
  | .num n => (.num n, h)
  | .obj fs =>
    let p := allocFs h fs
    (.ref p.2.length, p.2 ++ [p.1])
/-- Allocate tree fields in the heap, left to right. -/
def allocFs (h : Heap) : JFields → JObj × Heap
  | .nil => ([], h)
  | .cons k t rest =>
    let p := allocT h t
    let q := allocFs p.2 rest
    ((k, p.1) :: q.1, q.2)
end

/-- Assign one field of a heap object. -/
def setObj : JObj → String → JVal → JObj
  | [], key, v => [(key, v)]
  | (k, w) :: rest, key, v =>
    if k == key then (k, v) :: rest else (k, w) :: setObj rest key v

/-- Mutate the heap: assign field `k` of the object at address `a`. -/
def heapWrite (h : Heap) (a : ℕ) (k : String) (v : JVal) : Heap :=
  match h[a]? with
  | none => h
  | some o => h.set a (setObj o k v)

/-- `jQuery.extend( true, {}, src )` on plain data: read the source
graph and rebuild it from fresh heap cells
(`baseObj.options = $.extend( true, {}, baseObj.options )` in
`$.mvc.module`). -/
def jExtendCopy (fuel : ℕ) (h : Heap) (src : JVal) : Option (JVal × Heap) :=
  match readT h fuel src with
  | none => none
  | some (t, _) => some (allocT h (mergeT (.obj .nil) t))

/-- `jQuery.extend( true, {}, a, b )` on plain data: read both graphs,
deep-merge `b` over `a`, and allocate the result fresh
(`this.options = $.extend( true, {}, this.options, options )` in
`_createModule`). -/
def jExtendMerge (fuel : ℕ) (h : Heap) (a b : JVal) : Option (JVal × Heap) :=
  match readT h fuel a with
  | none => none
  | some (ta, _) =>
    match readT h fuel b with
    | none => none
    | some (tb, _) => some (allocT h (mergeT (mergeT (.obj .nil) ta) tb))

/-!  Association-list lemmas shared by the proofs below. -/

theorem lookupA_cons {α : Type} (a : String) (v : α) (r : List (String × α))
    (k : String) :
    lookupA ((a, v) :: r) k = if a == k then some v else lookupA r k := by
  by_cases h : a == k <;> simp [lookupA, List.find?_cons, h]

theorem lookupA_append {α : Type} (r s : List (String × α)) (k : String) :
    lookupA (r ++ s) k = (lookupA r k).or (lookupA s k) := by
  unfold lookupA
  rw [List.find?_append]
  cases List.find? (fun p => p.1 == k) r <;> simp

theorem lookupA_setA_self {α : Type} (r : List (String × α)) (k : String)
    (v : α) :
    lookupA (setA r k v) k = if (lookupA r k).isSome then some v else none := by
  induction r with
  | nil => simp [lookupA, setA]
  | cons p r ih =>
    obtain ⟨a, w⟩ := p
    by_cases h : a = k
    · subst h
      simp [setA, lookupA_cons]
    · simpa [setA, lookupA_cons, h] using ih

theorem lookupA_setA_ne {α : Type} (r : List (String × α)) (k k2 : String)
    (v : α) (h : k2 ≠ k) :
    lookupA (setA r k v) k2 = lookupA r k2 := by
  induction r with
  | nil => simp [lookupA, setA]
  | cons p r ih =>
    obtain ⟨a, w⟩ := p
    by_cases ha : a = k
    · subst ha
      have hb : a ≠ k2 := fun hc => h hc.symm
      simpa [setA, lookupA_cons, hb] using ih
    · by_cases hb : a = k2
      · subst hb
        simp [setA, lookupA_cons, ha]
      · simpa [setA, lookupA_cons, ha, hb] using ih

theorem lookupA_eraseA_self {α : Type} (r : List (String × α)) (k : String) :
    lookupA (eraseA r k) k = none := by
  induction r with
  | nil => simp [lookupA, eraseA]
  | cons p r ih =>
    obtain ⟨a, w⟩ := p
    by_cases h : a = k
    · simpa [eraseA, List.filter_cons, h] using ih
    · simpa [eraseA, List.filter_cons, lookupA_cons, h] using ih

theorem lookupA_eraseA_ne {α : Type} (r : List (String × α)) (k k2 : String)
    (h : k2 ≠ k) :
    lookupA (eraseA r k) k2 = lookupA r k2 := by
  induction r with
  | nil => simp [lookupA, eraseA]
  | cons p r ih =>
    obtain ⟨a, w⟩ := p
    by_cases ha : a = k
    · subst ha
      have hb : a ≠ k2 := fun hc => h hc.symm
      simpa [eraseA, List.filter_cons, lookupA_cons, hb] using ih
    · by_cases hb : a = k2
      · subst hb
        simp [eraseA, List.filter_cons, lookupA_cons, ha]
      · simpa [eraseA, List.filter_cons, lookupA_cons, ha, hb] using ih

theorem lookupA_register_self (r : Registry) (e : String) (o : Observer) :
    lookupA (register r e o) e = some ((lookupA r e).getD [] ++ [o]) := by
  unfold register
  cases h : lookupA r e with
  | none =>
    rw [lookupA_append, h]
    simp [lookupA_cons, lookupA]
  | some obs =>
    rw [lookupA_setA_self, h]
    simp

theorem lookupA_register_ne (r : Registry) (e e2 : String) (o : Observer)
    (h : e2 ≠ e) :
    lookupA (register r e o) e2 = lookupA r e2 := by
  unfold register
  cases hl : lookupA r e with
  | none =>
    rw [lookupA_append]
    have hone : lookupA [(e, [o])] e2 = none := by
      have : (e == e2) = false := by
        simp only [beq_eq_false_iff_ne, ne_eq]
        exact fun hc => h hc.symm
      simp [lookupA_cons, this, lookupA]
    rw [hone]
    cases lookupA r e2 <;> simp
  | some obs => exact lookupA_setA_ne r e e2 _ h

/-!  The compaction loop of `$.mvc.notifier.remove`: the elements kept
alive (the first `n` slots after the loop) are, up to permutation,
exactly the observers whose context does not match. -/

theorem removeLoop_spec (ctx : ℕ) :
    ∀ (fuel i n : ℕ) (l : List Observer), n - i ≤ fuel → i ≤ n →
    n ≤ l.length → (∀ o ∈ l.take i, ¬(o.context = ctx)) →
    (removeLoop ctx fuel l i n).1.length = l.length ∧
    (removeLoop ctx fuel l i n).2 ≤ n ∧
    ((removeLoop ctx fuel l i n).1.take (removeLoop ctx fuel l i n).2).Perm
      (l.take i ++ ((l.drop i).take (n - i)).filter
        (fun o => !(o.context == ctx))) := by
  intro fuel
  induction fuel with
  | zero =>
    intro i n l hf hin _ _
    have hieq : i = n := by omega
    subst hieq
    simp [removeLoop]
  | succ fuel ih =>
    intro i n l hf hin hnl hpre
    by_cases hlt : i < n
    · have hil : i < l.length := lt_of_lt_of_le hlt hnl
      have hget : l[i]? = some l[i] := List.getElem?_eq_getElem hil
      have hstep : removeLoop ctx (fuel + 1) l i n =
          if l[i].context = ctx then
            removeLoop ctx fuel (l.set i (l.getD (n - 1) l[i])) i (n - 1)
          else
            removeLoop ctx fuel l (i + 1) n := by
        rw [removeLoop, if_pos hlt, hget]
      by_cases hctx : l[i].context = ctx
      · -- matching observer: swap the last live element into slot i
        rw [hstep, if_pos hctx]
        have hn1 : n - 1 < l.length := by omega
        have hw : l.getD (n - 1) l[i] = l[n - 1] := by
          simp [List.getD_eq_getElem?_getD, List.getElem?_eq_getElem hn1]
        rw [hw]
        have htake : (l.set i l[n - 1]).take i = l.take i := by
          rw [List.set_take]
          exact List.set_eq_of_length_le (by simp [List.length_take])
        obtain ⟨ihlen, ihle, ihperm⟩ :=
          ih i (n - 1) (l.set i l[n - 1]) (by omega) (by omega)
            (by rw [List.length_set]; omega)
            (by rw [htake]; exact hpre)
        refine ⟨by simpa using ihlen, by omega, ?_⟩
        refine ihperm.trans ?_
        rw [htake]
        apply List.Perm.append_left
        -- compare the unscanned segments before and after the swap
        have hdropset : (l.set i l[n - 1]).drop i = l[n - 1] :: l.drop (i + 1) := by
          rw [List.drop_set]
          simp only [lt_irrefl, if_false, Nat.sub_self]
          rw [List.drop_eq_getElem_cons hil]
          rw [List.set_cons_zero]
        have hdrop : l.drop i = l[i] :: l.drop (i + 1) :=
          List.drop_eq_getElem_cons hil
        rw [hdropset, hdrop]
        have hni : n - i = (n - i - 1) + 1 := by omega
        rw [hni, List.take_succ_cons]
        have hkfalse : (!(l[i].context == ctx)) = false := by simp [hctx]
        rw [List.filter_cons, hkfalse]
        simp only [Bool.false_eq_true, if_false]
        by_cases hlast : i = n - 1
        · -- the matching slot was the last live slot
          have h0 : n - 1 - i = 0 := by omega
          have h0b : n - i - 1 = 0 := by omega
          rw [h0, h0b]
          simp
        · have hn2 : n - 1 - i = (n - i - 2) + 1 := by omega
          rw [hn2, List.take_succ_cons]
          have hn3 : n - i - 1 = (n - i - 2) + 1 := by omega
          rw [hn3, List.take_succ]
          have hidx : (l.drop (i + 1))[n - i - 2]? = some l[n - 1] := by
            rw [List.getElem?_drop]
            have : i + 1 + (n - i - 2) = n - 1 := by omega
            rw [this]
            exact List.getElem?_eq_getElem hn1
          rw [hidx]
          simp only [Option.toList_some]
          rw [List.filter_append]
          have : l[n - 1] :: (l.drop (i + 1)).take (n - i - 2) =
              [l[n - 1]] ++ (l.drop (i + 1)).take (n - i - 2) := rfl
          rw [this, List.filter_append]
          exact List.perm_append_comm
      · -- non-matching observer: advance the loop index
        rw [hstep, if_neg hctx]
        have htakes : l.take (i + 1) = l.take i ++ [l[i]] := by
          rw [List.take_succ, hget]
          rfl
        obtain ⟨ihlen, ihle, ihperm⟩ :=
          ih (i + 1) n l (by omega) (by omega) hnl
            (by
              intro o ho
              rw [htakes] at ho
              rcases List.mem_append.mp ho with h1 | h1
              · exact hpre o h1
              · rcases List.mem_singleton.mp h1 with rfl
                exact hctx)
        refine ⟨ihlen, ihle, ?_⟩
        refine ihperm.trans ?_
        have hdrop : l.drop i = l[i] :: l.drop (i + 1) :=
          List.drop_eq_getElem_cons hil
        rw [hdrop]
        have hni : n - i = (n - (i + 1)) + 1 := by omega
        rw [hni, List.take_succ_cons]
        have hktrue : (!(l[i].context == ctx)) = true := by simp [hctx]
        rw [List.filter_cons, hktrue]
        simp only [if_true]
        rw [htakes, List.append_assoc]
        rfl
    · have hieq : i = n := by omega
      subst hieq
      rw [removeLoop]
      simp [hlt]

theorem removeObs_spec (ctx : ℕ) (l : List Observer) :
    (removeObs ctx l = none →
      l.filter (fun o => !(o.context == ctx)) = []) ∧
    (∀ l2, removeObs ctx l = some l2 →
      l2.Perm (l.filter (fun o => !(o.context == ctx))) ∧ l2 ≠ []) := by
  obtain ⟨hlen, hle, hperm⟩ :=
    removeLoop_spec ctx l.length 0 l.length l (by omega) (Nat.zero_le _)
      (le_refl _) (by simp)
  simp only [List.take_zero, List.nil_append, List.drop_zero, Nat.sub_zero,
    List.take_length] at hperm
  unfold removeObs
  by_cases hz : (removeLoop ctx l.length l 0 l.length).2 = 0
  · refine ⟨fun _ => ?_, fun l2 hsome => ?_⟩
    · rw [hz] at hperm
      simp only [List.take_zero] at hperm
      exact hperm.symm.eq_nil
    · simp [hz] at hsome
  · refine ⟨fun hnone => ?_, fun l2 hsome => ?_⟩
    · simp [hz] at hnone
    · simp only [hz, if_false] at hsome
      injection hsome with hsome
      subst hsome
      refine ⟨hperm, ?_⟩
      have hlen2 : ((removeLoop ctx l.length l 0 l.length).1.take
          (removeLoop ctx l.length l 0 l.length).2).length =
          (removeLoop ctx l.length l 0 l.length).2 := by
        rw [List.length_take, hlen]
        omega
      intro hnil
      rw [hnil] at hlen2
      simp at hlen2
      exact hz hlen2.symm

theorem removeReg_spec (r : Registry) (e : String) (ctx : ℕ) :
    (lookupA r e = none → removeReg r e ctx = r) ∧
    (∀ l, lookupA r e = some l →
      (l.filter (fun o => !(o.context == ctx)) = [] →
        lookupA (removeReg r e ctx) e = none) ∧
      (l.filter (fun o => !(o.context == ctx)) ≠ [] →
        ∃ l2, lookupA (removeReg r e ctx) e = some l2 ∧
          l2.Perm (l.filter (fun o => !(o.context == ctx))) ∧ l2 ≠ [])) ∧
    (∀ e2, e2 ≠ e → lookupA (removeReg r e ctx) e2 = lookupA r e2) := by
  cases hl : lookupA r e with
  | none =>
    have hre : removeReg r e ctx = r := by
      unfold removeReg
      rw [hl]
    refine ⟨fun _ => hre, fun l hsome => ?_, fun e2 _ => by rw [hre]⟩
    cases hsome
  | some l =>
    refine ⟨?_, ?_, ?_⟩
    · intro hnone
      cases hnone
    · intro l0 hsome
      injection hsome with hsome
      subst hsome
      cases hro : removeObs ctx l with
      | none =>
        have hre : removeReg r e ctx = eraseA r e := by
          simp only [removeReg, hl, hro]
        refine ⟨fun _ => by rw [hre]; exact lookupA_eraseA_self r e,
          fun hne => ?_⟩
        exact absurd ((removeObs_spec ctx l).1 hro) hne
      | some l2 =>
        have hre : removeReg r e ctx = setA r e l2 := by
          simp only [removeReg, hl, hro]
        obtain ⟨hperm, hnil⟩ := (removeObs_spec ctx l).2 l2 hro
        refine ⟨fun hfil => ?_, fun _ => ?_⟩
        · exact absurd (hperm.trans (hfil ▸ List.Perm.refl _)).eq_nil hnil
        · refine ⟨l2, ?_, hperm, hnil⟩
          rw [hre, lookupA_setA_self, hl]
          rfl
    · intro e2 he2
      cases hro : removeObs ctx l with
      | none =>
        have hre : removeReg r e ctx = eraseA r e := by
          simp only [removeReg, hl, hro]
        rw [hre]
        exact lookupA_eraseA_ne r e e2 he2
      | some l2 =>
        have hre : removeReg r e ctx = setA r e l2 := by
          simp only [removeReg, hl, hro]
        rw [hre]
        exact lookupA_setA_ne r e e2 l2 he2

/-- **C7** — `$.mvc.notifier.remove( eventName, identity )` removes
exactly the subscriptions under `eventName` whose stored context equals
the given identity, preserves the others up to permutation, leaves
other event names untouched, and is a no-op when no subscriptions exist
under `eventName`. -/
theorem notifier_remove_exact (r : Registry) (e : String) (ctx : ℕ) :
    (lookupA r e = none → removeReg r e ctx = r) ∧
    (∀ l, lookupA r e = some l →
      (l.filter (fun o => !(o.context == ctx)) = [] →
        lookupA (removeReg r e ctx) e = none) ∧
      (l.filter (fun o => !(o.context == ctx)) ≠ [] →
        ∃ l2, lookupA (removeReg r e ctx) e = some l2 ∧
          l2.Perm (l.filter (fun o => !(o.context == ctx))))) ∧
    (∀ e2, e2 ≠ e → lookupA (removeReg r e ctx) e2 = lookupA r e2) := by
  obtain ⟨h1, h2, h3⟩ := removeReg_spec r e ctx
  refine ⟨h1, ?_, h3⟩
  intro l hsome
  obtain ⟨h4, h5⟩ := h2 l hsome
  refine ⟨h4, fun hne => ?_⟩
  obtain ⟨l2, ha, hb, _⟩ := h5 hne
  exact ⟨l2, ha, hb⟩

/-- Witness for C7 at a concrete registry. -/
theorem notifier_remove_exact_witness :
    ∃ l2,
      lookupA (removeReg [("e", [⟨1, 7⟩, ⟨2, 8⟩, ⟨3, 7⟩])] "e" 7) "e"
        = some l2 ∧
      l2.Perm ([⟨1, 7⟩, ⟨2, 8⟩, ⟨3, 7⟩].filter
        (fun o => !(o.context == 7))) :=
  ((notifier_remove_exact [("e", [⟨1, 7⟩, ⟨2, 8⟩, ⟨3, 7⟩])] "e" 7).2.1
    [⟨1, 7⟩, ⟨2, 8⟩, ⟨3, 7⟩] (by decide)).2 (by decide)

theorem applyNOp_inv (r : Registry) (op : NOp)
    (hr : ∀ e l, lookupA r e = some l → l ≠ []) :
    ∀ e l, lookupA (applyNOp r op) e = some l → l ≠ [] := by
  cases op with
  | reg e0 o =>
    intro e l hl
    by_cases he : e = e0
    · subst he
      rw [show applyNOp r (NOp.reg e o) = register r e o from rfl,
        lookupA_register_self] at hl
      injection hl with hl
      subst hl
      simp
    · rw [show applyNOp r (NOp.reg e0 o) = register r e0 o from rfl,
        lookupA_register_ne r e0 e o he] at hl
      exact hr e l hl
  | rem e0 ctx =>
    intro e l hl
    rw [show applyNOp r (NOp.rem e0 ctx) = removeReg r e0 ctx from rfl] at hl
    obtain ⟨h1, h2, h3⟩ := removeReg_spec r e0 ctx
    by_cases he : e = e0
    · subst he
      cases hl0 : lookupA r e with
      | none => rw [h1 hl0] at hl; exact hr e l hl
      | some l0 =>
        obtain ⟨h4, h5⟩ := h2 l0 hl0
        by_cases hfil : l0.filter (fun o => !(o.context == ctx)) = []
        · rw [h4 hfil] at hl; cases hl
        · obtain ⟨l2, ha, _, hc⟩ := h5 hfil
          rw [ha] at hl
          injection hl with hl
          subst hl
          exact hc
    · rw [h3 e he] at hl
      exact hr e l hl

theorem applyNOps_inv (ops : List NOp) :
    ∀ (r : Registry), (∀ e l, lookupA r e = some l → l ≠ []) →
    ∀ e l, lookupA (applyNOps r ops) e = some l → l ≠ [] := by
  induction ops with
  | nil => intro r hr; exact hr
  | cons op ops ih =>
    intro r hr
    exact ih (applyNOp r op) (applyNOp_inv r op hr)

/-- **C6** — after any sequence of `register` / `remove` operations an
event name is present in the observer registry only with a non-empty
observer array, and registering then removing a subscriber from an
absent event name leaves the event name absent (`has` is false). -/
theorem registry_no_dangling_entries :
    (∀ (ops : List NOp) (e : String) (l : List Observer),
      lookupA (applyNOps [] ops) e = some l → l ≠ []) ∧
    (∀ (r : Registry) (e : String) (o : Observer), lookupA r e = none →
      hasReg (applyNOps r [NOp.reg e o, NOp.rem e o.context]) e = false) := by
  constructor
  · intro ops
    exact applyNOps_inv ops [] (fun e l hl => by cases hl)
  · intro r e o hl
    have hreg : lookupA (register r e o) e = some [o] := by
      rw [lookupA_register_self, hl]
      rfl
    have hstate : applyNOps r [NOp.reg e o, NOp.rem e o.context] =
        removeReg (register r e o) e o.context := rfl
    rw [hstate]
    obtain ⟨_, h2, _⟩ := removeReg_spec (register r e o) e o.context
    obtain ⟨h4, _⟩ := h2 [o] hreg
    have hfil : [o].filter (fun x => !(x.context == o.context)) = [] := by
      simp
    rw [hasReg, h4 hfil]
    rfl

/-- Witness for C6 at a concrete operation sequence. -/
theorem registry_no_dangling_entries_witness :
    hasReg (applyNOps [] [NOp.reg "tick" ⟨1, 4⟩, NOp.rem "tick" 4]) "tick"
      = false :=
  registry_no_dangling_entries.2 [] "tick" ⟨1, 4⟩ (by decide)

/-!  Dispatch: draining the shared delivery queue. -/

theorem invocations_drain (opts : NotifierOpts) :
    ∀ (sync : ℕ) (ts : List (Observer × Notification)),
    invocations (drain opts sync ts) = ts := by
  intro sync ts
  induction ts generalizing sync with
  | nil => rfl
  | cons t ts ih =>
    obtain ⟨o, ntf⟩ := t
    by_cases hs : sync + 1 > opts.maxSync
    · simp [drain, hs, invocations, List.filterMap_cons] at ih ⊢
      exact ih 0
    · simp [drain, hs, invocations, List.filterMap_cons] at ih ⊢
      exact ih (sync + 1)

theorem burstLens_le (opts : NotifierOpts) :
    ∀ (ts : List (Observer × Notification)) (sync c0 : ℕ),
    sync ≤ opts.maxSync → c0 ≤ sync →
    ∀ c ∈ burstLens (drain opts sync ts) c0, c ≤ opts.maxSync + 1 := by
  intro ts
  induction ts with
  | nil =>
    intro sync c0 hs hc c hmem
    simp [drain, burstLens] at hmem
    omega
  | cons t ts ih =>
    intro sync c0 hs hc c hmem
    obtain ⟨o, ntf⟩ := t
    by_cases hgt : sync + 1 > opts.maxSync
    · simp only [drain, if_pos hgt, burstLens] at hmem
      rcases List.mem_cons.mp hmem with h1 | h1
      · omega
      · exact ih 0 0 (Nat.zero_le _) (le_refl 0) c h1
    · simp only [drain, if_neg hgt, burstLens] at hmem
      exact ih (sync + 1) (c0 + 1) (by omega) (by omega) c hmem

theorem lookupA_registerList_some :
    ∀ (os : List Observer) (r : Registry) (e : String) (l : List Observer),
    lookupA r e = some l → lookupA (registerList r e os) e = some (l ++ os) := by
  intro os
  induction os with
  | nil =>
    intro r e l hl
    simpa [registerList] using hl
  | cons o os ih =>
    intro r e l hl
    have h1 : lookupA (register r e o) e = some (l ++ [o]) := by
      rw [lookupA_register_self, hl]
      rfl
    have h2 := ih (register r e o) e (l ++ [o]) h1
    have h3 : registerList r e (o :: os) =
        registerList (register r e o) e os := rfl
    rw [h3, h2, List.append_assoc]
    rfl

/-- **C1** — registering a list of observers for an event name and then
issuing one `notify` delivers the notification to each registered
observer exactly once (once per registration entry: a doubly registered
subscriber receives two deliveries). -/
theorem register_then_notify_delivers_once (opts : NotifierOpts)
    (os : List Observer) (ntf : Notification) (sync : ℕ) :
    invocations (drain opts sync
      (notify { observerMap := registerList [] ntf.name os, queue := [] }
        ntf).queue) = os.map (fun o => (o, ntf)) ∧
    ∀ o : Observer,
      (invocations (drain opts sync
        (notify { observerMap := registerList [] ntf.name os, queue := [] }
          ntf).queue)).count (o, ntf) = os.count o := by
  have hq : (notify { observerMap := registerList [] ntf.name os, queue := [] }
      ntf).queue = os.map (fun o => (o, ntf)) := by
    cases os with
    | nil => simp [registerList, notify, lookupA]
    | cons o os2 =>
      have h1 : lookupA (register [] ntf.name o) ntf.name = some [o] := by
        rw [lookupA_register_self]
        rfl
      have h2 : lookupA (registerList [] ntf.name (o :: os2)) ntf.name
          = some (o :: os2) := by
        have h3 : registerList [] ntf.name (o :: os2) =
            registerList (register [] ntf.name o) ntf.name os2 := rfl
        rw [h3]
        exact lookupA_registerList_some os2 _ _ [o] h1
      simp [notify, h2]
  refine ⟨by rw [hq, invocations_drain], fun o => ?_⟩
  rw [hq, invocations_drain]
  clear hq
  induction os with
  | nil => rfl
  | cons a os2 ih =>
    by_cases h : a = o
    · subst h
      simp [List.count_cons, ih]
    · simp [List.count_cons, ih, h]

/-- **C2 (counterexample)** — with the default configuration
(`maxSync = 5`) a queue of six delivery tasks drained from a fresh
counter runs six handler invocations before the first yield, so the
synchronous burst length is not bounded by `maxSync` itself. -/
theorem dispatcher_burst_bound_cex :
    ¬ (∀ c ∈ burstLens
        (drain defaultOpts 0
          (List.replicate 6
            ({ fn := 0, context := 0 }, { name := "e", body := 0 }))) 0,
        c ≤ defaultOpts.maxSync) := by
  decide

/-- **C2 (amended)** — the dispatcher yields only after the
synchronous-delivery counter exceeds `maxSync`, so any synchronous
burst of a drain started with a fresh counter contains at most
`maxSync + 1` handler invocations (not `maxSync`). -/
theorem dispatcher_burst_bound (opts : NotifierOpts)
    (ts : List (Observer × Notification)) :
    ∀ c ∈ burstLens (drain opts 0 ts) 0, c ≤ opts.maxSync + 1 :=
  burstLens_le opts ts 0 0 (Nat.zero_le _) (le_refl 0)

/-- Witness for the amended C2 at a concrete queue. -/
theorem dispatcher_burst_bound_witness :
    (6 : ℕ) ∈ burstLens
      (drain defaultOpts 0
        (List.replicate 6
          ({ fn := 0, context := 0 }, { name := "e", body := 0 }))) 0 ∧
    (6 : ℕ) ≤ defaultOpts.maxSync + 1 :=
  ⟨by decide,
    dispatcher_burst_bound defaultOpts
      (List.replicate 6
        ({ fn := 0, context := 0 }, { name := "e", body := 0 })) 6
      (by decide)⟩

theorem applyNOpsState_queue :
    ∀ (ops : List NOp) (st : NotifierState),
    (applyNOpsState st ops).queue = st.queue := by
  intro ops
  induction ops with
  | nil => intro st; rfl
  | cons op ops ih =>
    intro st
    have h1 : applyNOpsState st (op :: ops) =
        applyNOpsState (applyNOpState st op) ops := rfl
    rw [h1, ih]
    rfl

/-- **C3** — `notify` is a no-op when no subscriptions exist for the
notification's name; otherwise it enqueues exactly one delivery task
per subscription in the snapshot taken at call time, and no later
`register` / `remove` operations change the enqueued delivery set. -/
theorem notify_stable_snapshot (st : NotifierState) (ntf : Notification) :
    (lookupA st.observerMap ntf.name = none → notify st ntf = st) ∧
    (∀ obs, lookupA st.observerMap ntf.name = some obs →
      ∀ ops : List NOp,
        (applyNOpsState (notify st ntf) ops).queue
          = st.queue ++ obs.map (fun o => (o, ntf))) := by
  constructor
  · intro hl
    simp only [notify, hl]
  · intro obs hl ops
    rw [applyNOpsState_queue]
    simp only [notify, hl]

/-- Witness for C3 at a concrete notifier state. -/
theorem notify_stable_snapshot_witness :
    (applyNOpsState
      (notify { observerMap := [("e", [⟨1, 2⟩])], queue := [] }
        { name := "e", body := 0 })
      [NOp.reg "e" ⟨3, 4⟩]).queue
    = [] ++ [Observer.mk 1 2].map
        (fun o => (o, ({ name := "e", body := 0 } : Notification))) :=
  (notify_stable_snapshot
    { observerMap := [("e", [⟨1, 2⟩])], queue := [] }
    { name := "e", body := 0 }).2 [⟨1, 2⟩] (by decide) [NOp.reg "e" ⟨3, 4⟩]

/-- **C4** — `_super` invoked from a method with a recorded `__super`
back-reference calls the base function on the current instance with the
given arguments and returns its result; from a method without one (or
with no identifiable caller) it fails with the no-super-implementation
error. -/
theorem super_call_resolution (I A R : Type) (sem : ℕ → I → A → R)
    (supOf : ℕ → Option ℕ) (caller : Option ℕ) (self : I) (args : A) :
    (∀ c b, caller = some c → supOf c = some b →
      superCall sem supOf caller self args = .ok (sem b self args)) ∧
    (∀ c, caller = some c → supOf c = none →
      superCall sem supOf caller self args
        = .error .noSuperImplementation) ∧
    (caller = none →
      superCall sem supOf caller self args
        = .error .noSuperImplementation) := by
  refine ⟨?_, ?_, ?_⟩
  · intro c b hc hb
    subst hc
    simp only [superCall, hb]
  · intro c hc hb
    subst hc
    simp only [superCall, hb]
  · intro hc
    subst hc
    rfl

/-- Witness for C4 at concrete function tables. -/
theorem super_call_resolution_witness :
    superCall (fun b _ _ => b) (fun _ => some 5) (some 3) (0 : ℕ) (0 : ℕ)
      = Except.ok 5 ∧
    superCall (fun b _ _ => b) (fun _ => none) (some 3) (0 : ℕ) (0 : ℕ)
      = Except.error SuperErr.noSuperImplementation :=
  ⟨(super_call_resolution ℕ ℕ ℕ (fun b _ _ => b) (fun _ => some 5)
      (some 3) 0 0).1 3 5 rfl rfl,
   (super_call_resolution ℕ ℕ ℕ (fun b _ _ => b) (fun _ => none)
      (some 3) 0 0).2.1 3 rfl rfl⟩

/-- **C5** — in the prototype produced by `$.mvc.module`, a callable
entry receives a `__super` back-reference to the base prototype's
same-named callable exactly when that base callable exists and differs
from it; in every other case (including the `constructor` key) the
entry is left untouched. -/
theorem module_wires_super (baseP : Proto) (ctorId : ℕ) (proto : Proto)
    (k : String) (id : ℕ) (s0 : Option ℕ)
    (hmem : (k, PVal.func id s0) ∈ mvcMerged baseP ctorId proto) :
    (∀ bid bs, k ≠ "constructor" → lookupA baseP k = some (.func bid bs) →
      bid ≠ id →
      (k, PVal.func id (some bid)) ∈ mvcModule baseP ctorId proto) ∧
    ((k = "constructor" ∨
      ∀ bid bs, lookupA baseP k = some (.func bid bs) → bid = id) →
      (k, PVal.func id s0) ∈ mvcModule baseP ctorId proto) := by
  have hmap : ∀ v2, wireEntry baseP k (PVal.func id s0) = v2 →
      (k, v2) ∈ mvcModule baseP ctorId proto := by
    intro v2 hv
    subst hv
    exact List.mem_map.mpr ⟨(k, PVal.func id s0), hmem, rfl⟩
  constructor
  · intro bid bs hk hb hne
    apply hmap
    simp [wireEntry, hk, hb, Ne.symm hne]
  · intro hcase
    apply hmap
    rcases hcase with hk | hall
    · simp [wireEntry, hk]
    · by_cases hk : k = "constructor"
      · simp [wireEntry, hk]
      · cases hb : lookupA baseP k with
        | none => simp [wireEntry, hk, hb]
        | some bv =>
          cases bv with
          | data d => simp [wireEntry, hk, hb]
          | func bid bs =>
            have hbid : bid = id := hall bid bs hb
            subst hbid
            simp [wireEntry, hk, hb]

/-- Witness for C5 at a concrete derivation. -/
theorem module_wires_super_witness :
    ("f", PVal.func 2 (some 1)) ∈
      mvcModule [("f", PVal.func 1 none)] 9 [("f", PVal.func 2 none)] :=
  (module_wires_super [("f", PVal.func 1 none)] 9 [("f", PVal.func 2 none)]
    "f" 2 none (by decide)).1 1 none (by decide) (by decide) (by decide)

/-- **C9** — `$.mvc.Notification` and `$.mvc.Observer` called as plain
functions (receiver is not an instance) return the same value as their
`new`-constructed counterparts, with the fields assigned from the
arguments. -/
theorem constructors_callable_without_new (name : String)
    (body fn ctx : ℕ) :
    callNotification false name body = mkNotification name body ∧
    (callNotification false name body).name = name ∧
    (callNotification false name body).body = body ∧
    callObserver false fn ctx = mkObserver fn ctx ∧
    (callObserver false fn ctx).fn = fn ∧
    (callObserver false fn ctx).context = ctx :=
  ⟨rfl, rfl, rfl, rfl, rfl, rfl⟩

theorem runCacheEvs_map_observers (m : CacheMap) (interests : List String)
    (evs : List CacheEv) :
    runCacheEvs m (interests.map (fun n => CacheEv.removeObserver n) ++ evs)
      = interests.map (fun n => (CacheEv.removeObserver n, m)) ++
          runCacheEvs m evs := by
  induction interests with
  | nil => rfl
  | cons i is ih => simp [runCacheEvs, applyCacheEv, ih]

/-- **C10** — when `$.mvc.model.remove` / `$.mvc.view.remove` invoke the
instance's `_remove` callback, the instance has already been deleted
from the cache map: at the callback step the map no longer contains the
name, so the callback is never invoked while the instance is still
registered. -/
theorem remove_callback_sees_deleted (m : CacheMap) (k : String)
    (interests : List String) :
    (∀ st, (CacheEv.callbackRemove k, st) ∈
        runCacheEvs m (modelRemoveEvs m k) →
      hasCache st k = false) ∧
    (∀ st, (CacheEv.callbackRemove k, st) ∈
        runCacheEvs m (viewRemoveEvs m interests k) →
      hasCache st k = false) := by
  constructor
  · intro st hmem
    unfold modelRemoveEvs at hmem
    cases hl : lookupA m k with
    | none =>
      rw [hl] at hmem
      simp [runCacheEvs] at hmem
    | some v =>
      rw [hl] at hmem
      simp only [runCacheEvs, applyCacheEv, List.mem_cons,
        List.not_mem_nil, or_false, Prod.mk.injEq] at hmem
      rcases hmem with ⟨h1, _⟩ | ⟨_, h2⟩
      · cases h1
      · subst h2
        simp [hasCache, lookupA_eraseA_self]
  · intro st hmem
    unfold viewRemoveEvs at hmem
    cases hl : lookupA m k with
    | none =>
      rw [hl] at hmem
      simp [runCacheEvs] at hmem
    | some v =>
      rw [hl] at hmem
      rw [runCacheEvs_map_observers] at hmem
      rcases List.mem_append.mp hmem with h1 | h1
      · obtain ⟨n, _, hn⟩ := List.mem_map.mp h1
        cases hn
      · simp only [runCacheEvs, applyCacheEv, List.mem_cons,
          List.not_mem_nil, or_false, Prod.mk.injEq] at h1
        rcases h1 with ⟨h2, _⟩ | ⟨_, h3⟩
        · cases h2
        · subst h3
          simp [hasCache, lookupA_eraseA_self]

/-- Witness for C10 at a concrete cache. -/
theorem remove_callback_sees_deleted_witness :
    hasCache (eraseA [("a", 1)] "a") "a" = false :=
  (remove_callback_sees_deleted [("a", 1)] "a" ["t"]).2
    (eraseA [("a", 1)] "a") (by decide)

/-!  Heap-model lemmas for the configuration deep copies (C8). -/

theorem readT_mono : ∀ (fuel : ℕ) (h : Heap),
    (∀ (v : JVal) (r : JTree × List ℕ), readT h fuel v = some r →
      readT h (fuel + 1) v = some r) ∧
    (∀ (o : JObj) (r : JFields × List ℕ), readFs h fuel o = some r →
      readFs h (fuel + 1) o = some r) := by
  intro fuel
  induction fuel with
  | zero =>
    intro h
    constructor
    · intro v r hr
      cases v with
      | num n => simpa [readT] using hr
      | ref a => simp [readT] at hr
    · intro o r hr
      cases o with
      | nil => simpa [readFs] using hr
      | cons p rest => simp [readFs] at hr
  | succ fuel ih =>
    intro h
    constructor
    · intro v r hr
      cases v with
      | num n => simpa [readT] using hr
      | ref a =>
        simp only [readT] at hr ⊢
        cases ha : h[a]? with
        | none => simp only [ha] at hr; cases hr
        | some o =>
          simp only [ha] at hr ⊢
          cases hfs : readFs h fuel o with
          | none => simp only [hfs] at hr; cases hr
          | some p =>
            simp only [hfs] at hr
            simp only [(ih h).2 o p hfs]
            exact hr
    · intro o r hr
      cases o with
      | nil => simpa [readFs] using hr
      | cons p rest =>
        obtain ⟨k, v⟩ := p
        simp only [readFs] at hr ⊢
        cases hv : readT h fuel v with
        | none => simp only [hv] at hr; cases hr
        | some pv =>
          simp only [hv] at hr ⊢
          simp only [(ih h).1 v pv hv]
          cases hrest : readFs h fuel rest with
          | none => simp only [hrest] at hr; cases hr
          | some pr =>
            simp only [hrest] at hr
            simp only [(ih h).2 rest pr hrest]
            exact hr

theorem readT_mono_le : ∀ (f f2 : ℕ), f ≤ f2 → ∀ (h : Heap),
    (∀ (v : JVal) (r : JTree × List ℕ), readT h f v = some r →
      readT h f2 v = some r) ∧
    (∀ (o : JObj) (r : JFields × List ℕ), readFs h f o = some r →
      readFs h f2 o = some r) := by
  intro f f2 hle
  induction f2 with
  | zero =>
    have hf : f = 0 := by omega
    subst hf
    exact fun h => ⟨fun v r hr => hr, fun o r hr => hr⟩
  | succ f2 ih =>
    intro h
    by_cases heq : f = f2 + 1
    · subst heq
      exact ⟨fun v r hr => hr, fun o r hr => hr⟩
    · have hle2 : f ≤ f2 := by omega
      refine ⟨fun v r hr => ?_, fun o r hr => ?_⟩
      · exact (readT_mono f2 h).1 v r ((ih hle2 h).1 v r hr)
      · exact (readT_mono f2 h).2 o r ((ih hle2 h).2 o r hr)

theorem readT_bounds : ∀ (fuel : ℕ) (h : Heap),
    (∀ (v : JVal) (t : JTree) (addrs : List ℕ),
      readT h fuel v = some (t, addrs) → ∀ a ∈ addrs, a < h.length) ∧
    (∀ (o : JObj) (fs : JFields) (addrs : List ℕ),
      readFs h fuel o = some (fs, addrs) → ∀ a ∈ addrs, a < h.length) := by
  intro fuel
  induction fuel with
  | zero =>
    intro h
    constructor
    · intro v t addrs hr a ha
      cases v with
      | num n =>
        simp only [readT, Option.some.injEq, Prod.mk.injEq] at hr
        rw [← hr.2] at ha
        cases ha
      | ref b => simp [readT] at hr
    · intro o fs addrs hr a ha
      cases o with
      | nil =>
        simp only [readFs, Option.some.injEq, Prod.mk.injEq] at hr
        rw [← hr.2] at ha
        cases ha
      | cons p rest => simp [readFs] at hr
  | succ fuel ih =>
    intro h
    constructor
    · intro v t addrs hr a ha
      cases v with
      | num n =>
        simp only [readT, Option.some.injEq, Prod.mk.injEq] at hr
        rw [← hr.2] at ha
        cases ha
      | ref b =>
        simp only [readT] at hr
        cases hb : h[b]? with
        | none => simp only [hb] at hr; cases hr
        | some o =>
          simp only [hb] at hr
          cases hfs : readFs h fuel o with
          | none => simp only [hfs] at hr; cases hr
          | some p =>
            simp only [hfs, Option.some.injEq, Prod.mk.injEq] at hr
            rw [← hr.2] at ha
            have hblen : b < h.length := by
              by_contra hc
              rw [List.getElem?_eq_none (by omega)] at hb
              cases hb
            rcases List.mem_cons.mp ha with rfl | ha2
            · exact hblen
            · exact (ih h).2 o p.1 p.2 (by rw [hfs]) a ha2
    · intro o fs addrs hr a ha
      cases o with
      | nil =>
        simp only [readFs, Option.some.injEq, Prod.mk.injEq] at hr
        rw [← hr.2] at ha
        cases ha
      | cons p rest =>
        obtain ⟨k, v⟩ := p
        simp only [readFs] at hr
        cases hv : readT h fuel v with
        | none => simp only [hv] at hr; cases hr
        | some pv =>
          simp only [hv] at hr
          cases hrest : readFs h fuel rest with
          | none => simp only [hrest] at hr; cases hr
          | some pr =>
            simp only [hrest, Option.some.injEq, Prod.mk.injEq] at hr
            rw [← hr.2] at ha
            rcases List.mem_append.mp ha with ha2 | ha2
            · exact (ih h).1 v pv.1 pv.2 (by rw [hv]) a ha2
            · exact (ih h).2 rest pr.1 pr.2 (by rw [hrest]) a ha2

theorem readT_append : ∀ (fuel : ℕ) (h h2 : Heap),
    (∀ (v : JVal) (r : JTree × List ℕ), readT h fuel v = some r →
      readT (h ++ h2) fuel v = some r) ∧
    (∀ (o : JObj) (r : JFields × List ℕ), readFs h fuel o = some r →
      readFs (h ++ h2) fuel o = some r) := by
  intro fuel
  induction fuel with
  | zero =>
    intro h h2
    constructor
    · intro v r hr
      cases v with
      | num n => simpa [readT] using hr
      | ref a => simp [readT] at hr
    · intro o r hr
      cases o with
      | nil => simpa [readFs] using hr
      | cons p rest => simp [readFs] at hr
  | succ fuel ih =>
    intro h h2
    constructor
    · intro v r hr
      cases v with
      | num n => simpa [readT] using hr
      | ref a =>
        simp only [readT] at hr ⊢
        cases ha : h[a]? with
        | none => simp only [ha] at hr; cases hr
        | some o =>
          simp only [ha] at hr
          have halen : a < h.length := by
            by_contra hc
            rw [List.getElem?_eq_none (by omega)] at ha
            cases ha
          simp only [List.getElem?_append_left halen, ha]
          cases hfs : readFs h fuel o with
          | none => simp only [hfs] at hr; cases hr
          | some p =>
            simp only [hfs] at hr
            simp only [(ih h h2).2 o p hfs]
            exact hr
    · intro o r hr
      cases o with
      | nil => simpa [readFs] using hr
      | cons p rest =>
        obtain ⟨k, v⟩ := p
        simp only [readFs] at hr ⊢
        cases hv : readT h fuel v with
        | none => simp only [hv] at hr; cases hr
        | some pv =>
          simp only [hv] at hr
          simp only [(ih h h2).1 v pv hv]
          cases hrest : readFs h fuel rest with
          | none => simp only [hrest] at hr; cases hr
          | some pr =>
            simp only [hrest] at hr
            simp only [(ih h h2).2 rest pr hrest]
            exact hr

theorem readT_write : ∀ (fuel : ℕ) (h : Heap) (a : ℕ) (k : String) (w : JVal),
    (∀ (v : JVal) (t : JTree) (addrs : List ℕ),
      readT h fuel v = some (t, addrs) → a ∉ addrs →
      readT (heapWrite h a k w) fuel v = some (t, addrs)) ∧
    (∀ (o : JObj) (fs : JFields) (addrs : List ℕ),
      readFs h fuel o = some (fs, addrs) → a ∉ addrs →
      readFs (heapWrite h a k w) fuel o = some (fs, addrs)) := by
  intro fuel
  induction fuel with
  | zero =>
    intro h a k w
    constructor
    · intro v t addrs hr ha
      cases v with
      | num n => simpa [readT] using hr
      | ref b => simp [readT] at hr
    · intro o fs addrs hr ha
      cases o with
      | nil => simpa [readFs] using hr
      | cons p rest => simp [readFs] at hr
  | succ fuel ih =>
    intro h a k w
    have hwrite : ∀ b, b ≠ a → (heapWrite h a k w)[b]? = h[b]? := by
      intro b hb
      unfold heapWrite
      cases hcell : h[a]? with
      | none => rfl
      | some o0 => exact List.getElem?_set_ne (fun hc => hb hc.symm)
    constructor
    · intro v t addrs hr ha
      cases v with
      | num n => simpa [readT] using hr
      | ref b =>
        simp only [readT] at hr ⊢
        cases hb : h[b]? with
        | none => simp only [hb] at hr; cases hr
        | some o =>
          simp only [hb] at hr
          cases hfs : readFs h fuel o with
          | none => simp only [hfs] at hr; cases hr
          | some p =>
            simp only [hfs, Option.some.injEq, Prod.mk.injEq] at hr
            have hba : b ≠ a := by
              intro hc
              subst hc
              exact ha (hr.2 ▸ List.mem_cons_self b p.2)
            have hanotp : a ∉ p.2 := by
              intro hc
              exact ha (hr.2 ▸ List.mem_cons_of_mem b hc)
            simp only [hwrite b hba, hb]
            simp only [(ih h a k w).2 o p.1 p.2 (by rw [hfs]) hanotp]
            rw [← hr.1, ← hr.2]
    · intro o fs addrs hr ha
      cases o with
      | nil => simpa [readFs] using hr
      | cons p rest =>
        obtain ⟨key, v⟩ := p
        simp only [readFs] at hr ⊢
        cases hv : readT h fuel v with
        | none => simp only [hv] at hr; cases hr
        | some pv =>
          simp only [hv] at hr
          cases hrest : readFs h fuel rest with
          | none => simp only [hrest] at hr; cases hr
          | some pr =>
            simp only [hrest, Option.some.injEq, Prod.mk.injEq] at hr
            have hav : a ∉ pv.2 := by
              intro hc
              exact ha (hr.2 ▸ List.mem_append_left pr.2 hc)
            have har : a ∉ pr.2 := by
              intro hc
              exact ha (hr.2 ▸ List.mem_append_right pv.2 hc)
            simp only [(ih h a k w).1 v pv.1 pv.2 (by rw [hv]) hav]
            simp only [(ih h a k w).2 rest pr.1 pr.2 (by rw [hrest]) har]
            rw [← hr.1, ← hr.2]

mutual
theorem allocT_spec : ∀ (h : Heap) (t : JTree),
    ∃ ext fuel addrs,
      (allocT h t).2 = h ++ ext ∧
      readT (allocT h t).2 fuel (allocT h t).1 = some (t, addrs) ∧
      ∀ a ∈ addrs, h.length ≤ a ∧ a < (allocT h t).2.length := by
  intro h t
  cases t with
  | num n =>
    refine ⟨[], 0, [], by simp [allocT], by simp [allocT, readT], by simp⟩
  | obj fs =>
    obtain ⟨ext, fuel, addrs, hext, hread, hbnd⟩ := allocFs_spec h fs
    have hval : allocT h (.obj fs) =
        (.ref (allocFs h fs).2.length,
          (allocFs h fs).2 ++ [(allocFs h fs).1]) := rfl
    have hlen2 : (allocFs h fs).2.length = h.length + ext.length := by
      rw [hext]
      simp
    refine ⟨ext ++ [(allocFs h fs).1], fuel + 1,
      (allocFs h fs).2.length :: addrs, ?_, ?_, ?_⟩
    · rw [hval, hext, List.append_assoc]
    · rw [hval]
      simp only [readT, List.getElem?_concat_length]
      have hread2 : readFs ((allocFs h fs).2 ++ [(allocFs h fs).1]) fuel
          (allocFs h fs).1 = some (fs, addrs) :=
        (readT_append fuel (allocFs h fs).2 [(allocFs h fs).1]).2 _ _ hread
      simp only [hread2]
    · intro a ha
      rw [hval]
      simp only [List.length_append, List.length_cons, List.length_nil]
      rcases List.mem_cons.mp ha with rfl | ha2
      · omega
      · have := hbnd a ha2
        omega
theorem allocFs_spec : ∀ (h : Heap) (fs : JFields),
    ∃ ext fuel addrs,
      (allocFs h fs).2 = h ++ ext ∧
      readFs (allocFs h fs).2 fuel (allocFs h fs).1 = some (fs, addrs) ∧
      ∀ a ∈ addrs, h.length ≤ a ∧ a < (allocFs h fs).2.length := by
  intro h fs
  cases fs with
  | nil =>
    refine ⟨[], 0, [], by simp [allocFs], by simp [allocFs, readFs], by simp⟩
  | cons k t rest =>
    obtain ⟨e1, f1, A1, hext1, hread1, hbnd1⟩ := allocT_spec h t
    obtain ⟨e2, f2, A2, hext2, hread2, hbnd2⟩ :=
      allocFs_spec (allocT h t).2 rest
    have hval : allocFs h (.cons k t rest) =
        ((k, (allocT h t).1) :: (allocFs (allocT h t).2 rest).1,
          (allocFs (allocT h t).2 rest).2) := rfl
    have hlen1 : (allocT h t).2.length = h.length + e1.length := by
      rw [hext1]
      simp
    have hlen2 : (allocFs (allocT h t).2 rest).2.length =
        (allocT h t).2.length + e2.length := by
      rw [hext2]
      simp
    refine ⟨e1 ++ e2, max f1 f2 + 1, A1 ++ A2, ?_, ?_, ?_⟩
    · rw [hval]
      simp only []
      rw [hext2, hext1, List.append_assoc]
    · rw [hval]
      simp only [readFs]
      have hr1 : readT (allocFs (allocT h t).2 rest).2 (max f1 f2)
          (allocT h t).1 = some (t, A1) := by
        have s1 := (readT_append f1 (allocT h t).2 e2).1 _ _ hread1
        rw [← hext2] at s1
        exact (readT_mono_le f1 (max f1 f2) (le_max_left f1 f2) _).1 _ _ s1
      have hr2 : readFs (allocFs (allocT h t).2 rest).2 (max f1 f2)
          (allocFs (allocT h t).2 rest).1 = some (rest, A2) :=
        (readT_mono_le f2 (max f1 f2) (le_max_right f1 f2) _).2 _ _ hread2
      simp only [hr1, hr2]
    · intro a ha
      rw [hval]
      rcases List.mem_append.mp ha with ha2 | ha2
      · have := hbnd1 a ha2
        simp only []
        omega
      · have := hbnd2 a ha2
        simp only []
        omega
end

theorem jExtendCopy_spec (fuel : ℕ) (h : Heap) (src vout : JVal)
    (hout : Heap) (t : JTree) (A : List ℕ)
    (hread : readT h fuel src = some (t, A))
    (hx : jExtendCopy fuel h src = some (vout, hout)) :
    ∃ ext f2 addrs,
      hout = h ++ ext ∧
      readT hout f2 vout = some (mergeT (.obj .nil) t, addrs) ∧
      ∀ a ∈ addrs, h.length ≤ a ∧ a < hout.length := by
  unfold jExtendCopy at hx
  simp only [hread] at hx
  injection hx with hx
  obtain ⟨ext, f2, addrs, hext, hr, hb⟩ :=
    allocT_spec h (mergeT (.obj .nil) t)
  rw [hx] at hext hr hb
  exact ⟨ext, f2, addrs, hext, hr, hb⟩

theorem jExtendMerge_spec (fuel : ℕ) (h : Heap) (va vb vout : JVal)
    (hout : Heap)
    (hx : jExtendMerge fuel h va vb = some (vout, hout)) :
    ∃ ta tb Aa Ab ext f2 addrs,
      readT h fuel va = some (ta, Aa) ∧
      readT h fuel vb = some (tb, Ab) ∧
      hout = h ++ ext ∧
      readT hout f2 vout
        = some (mergeT (mergeT (.obj .nil) ta) tb, addrs) ∧
      ∀ a2 ∈ addrs, h.length ≤ a2 ∧ a2 < hout.length := by
  unfold jExtendMerge at hx
  cases hra : readT h fuel va with
  | none => simp only [hra] at hx; cases hx
  | some pa =>
    simp only [hra] at hx
    cases hrb : readT h fuel vb with
    | none => simp only [hrb] at hx; cases hx
    | some pb =>
      simp only [hrb] at hx
      injection hx with hx
      obtain ⟨ta, Aa⟩ := pa
      obtain ⟨tb, Ab⟩ := pb
      obtain ⟨ext, f2, addrs, hext, hr, hb⟩ :=
        allocT_spec h (mergeT (mergeT (.obj .nil) ta) tb)
      rw [hx] at hext hr hb
      exact ⟨ta, tb, Aa, Ab, ext, f2, addrs, rfl, rfl, hext, hr, hb⟩

/-- **C8** — configuration objects are deep-copied at derivation time
(`$.mvc.module`) and again, merged with the caller's overrides, at
instance-construction time (`_createModule`): the definition's copied
defaults and the two instances' configurations occupy pairwise disjoint
heap regions (also disjoint from the base defaults they were copied
from), so mutating any object reachable from one instance's
configuration leaves what the other instance and the definition's
defaults read completely unchanged. -/
theorem options_deep_copied (h0 : Heap) (dv ov1 ov2 vdef v1 v2 : JVal)
    (hA hB hC : Heap) (f0 g1 g2 : ℕ) (dt : JTree) (A0 : List ℕ)
    (hd : readT h0 f0 dv = some (dt, A0))
    (hD : jExtendCopy f0 h0 dv = some (vdef, hA))
    (hI1 : jExtendMerge g1 hA vdef ov1 = some (v1, hB))
    (hI2 : jExtendMerge g2 hB vdef ov2 = some (v2, hC)) :
    ∃ fd tdef Adef fe t1 A1 ff t2 A2,
      readT hC fd vdef = some (tdef, Adef) ∧
      readT hC fe v1 = some (t1, A1) ∧
      readT hC ff v2 = some (t2, A2) ∧
      (∀ a ∈ Adef, a ∉ A0) ∧
      (∀ a ∈ A1, a ∉ Adef ∧ a ∉ A2) ∧
      (∀ a ∈ A2, a ∉ Adef) ∧
      (∀ a ∈ A1, ∀ k w,
        readT (heapWrite hC a k w) ff v2 = some (t2, A2) ∧
        readT (heapWrite hC a k w) fd vdef = some (tdef, Adef)) ∧
      (∀ a ∈ A2, ∀ k w,
        readT (heapWrite hC a k w) fe v1 = some (t1, A1) ∧
        readT (heapWrite hC a k w) fd vdef = some (tdef, Adef)) := by
  obtain ⟨e1, fd, Adef, hAe, hrdef, hbdef⟩ :=
    jExtendCopy_spec f0 h0 dv vdef hA dt A0 hd hD
  obtain ⟨ta1, tb1, Aa1, Ab1, e2, fe, A1, _, _, hBe, hrv1, hb1⟩ :=
    jExtendMerge_spec g1 hA vdef ov1 v1 hB hI1
  obtain ⟨ta2, tb2, Aa2, Ab2, e3, ff, A2, _, _, hCe, hrv2, hb2⟩ :=
    jExtendMerge_spec g2 hB vdef ov2 v2 hC hI2
  have hA0 : ∀ a ∈ A0, a < h0.length :=
    (readT_bounds f0 h0).1 dv dt A0 hd
  have hlenA : hA.length = h0.length + e1.length := by rw [hAe]; simp
  have hlenB : hB.length = hA.length + e2.length := by rw [hBe]; simp
  have hlenC : hC.length = hB.length + e3.length := by rw [hCe]; simp
  -- lift the reads of the derivation copy and of instance 1 to the final heap
  have hrdefB : readT hB fd vdef = some (mergeT (.obj .nil) dt, Adef) := by
    have s1 := (readT_append fd hA e2).1 _ _ hrdef
    rw [← hBe] at s1
    exact s1
  have hrdefC : readT hC fd vdef = some (mergeT (.obj .nil) dt, Adef) := by
    have s1 := (readT_append fd hB e3).1 _ _ hrdefB
    rw [← hCe] at s1
    exact s1
  have hrv1C : readT hC fe v1
      = some (mergeT (mergeT (.obj .nil) ta1) tb1, A1) := by
    have s1 := (readT_append fe hB e3).1 _ _ hrv1
    rw [← hCe] at s1
    exact s1
  refine ⟨fd, mergeT (.obj .nil) dt, Adef, fe,
    mergeT (mergeT (.obj .nil) ta1) tb1, A1, ff,
    mergeT (mergeT (.obj .nil) ta2) tb2, A2,
    hrdefC, hrv1C, hrv2, ?_, ?_, ?_, ?_, ?_⟩
  · intro a ha hc
    have := hbdef a ha
    have := hA0 a hc
    omega
  · intro a ha
    have h1 := hb1 a ha
    constructor
    · intro hc
      have := hbdef a hc
      omega
    · intro hc
      have := hb2 a hc
      omega
  · intro a ha hc
    have := hb2 a ha
    have := hbdef a hc
    omega
  · intro a ha k w
    have h1 := hb1 a ha
    have hnot2 : a ∉ A2 := by
      intro hc
      have := hb2 a hc
      omega
    have hnotd : a ∉ Adef := by
      intro hc
      have := hbdef a hc
      omega
    exact ⟨(readT_write ff hC a k w).1 v2 _ A2 hrv2 hnot2,
      (readT_write fd hC a k w).1 vdef _ Adef hrdefC hnotd⟩
  · intro a ha k w
    have h2 := hb2 a ha
    have hnot1 : a ∉ A1 := by
      intro hc
      have := hb1 a hc
      omega
    have hnotd : a ∉ Adef := by
      intro hc
      have := hbdef a hc
      omega
    exact ⟨(readT_write fe hC a k w).1 v1 _ A1 hrv1C hnot1,
      (readT_write fd hC a k w).1 vdef _ Adef hrdefC hnotd⟩

/-- Witness for C8 at the spec's scenario: defaults `{count: 0}` and
instance overrides `{count: 5}` and `{count: 9}`. -/
theorem options_deep_copied_witness :
    ∃ fd tdef Adef fe t1 A1 ff t2 A2,
      readT
        [[("count", JVal.num 0)], [("count", JVal.num 5)],
         [("count", JVal.num 9)], [("count", JVal.num 0)],
         [("count", JVal.num 5)], [("count", JVal.num 9)]]
        fd (JVal.ref 3) = some (tdef, Adef) ∧
      readT
        [[("count", JVal.num 0)], [("count", JVal.num 5)],
         [("count", JVal.num 9)], [("count", JVal.num 0)],
         [("count", JVal.num 5)], [("count", JVal.num 9)]]
        fe (JVal.ref 4) = some (t1, A1) ∧
      readT
        [[("count", JVal.num 0)], [("count", JVal.num 5)],
         [("count", JVal.num 9)], [("count", JVal.num 0)],
         [("count", JVal.num 5)], [("count", JVal.num 9)]]
        ff (JVal.ref 5) = some (t2, A2) ∧
      (∀ a ∈ Adef, a ∉ [0]) ∧
      (∀ a ∈ A1, a ∉ Adef ∧ a ∉ A2) ∧
      (∀ a ∈ A2, a ∉ Adef) ∧
      (∀ a ∈ A1, ∀ k w,
        readT (heapWrite
          [[("count", JVal.num 0)], [("count", JVal.num 5)],
           [("count", JVal.num 9)], [("count", JVal.num 0)],
           [("count", JVal.num 5)], [("count", JVal.num 9)]] a k w)
          ff (JVal.ref 5) = some (t2, A2) ∧
        readT (heapWrite
          [[("count", JVal.num 0)], [("count", JVal.num 5)],
           [("count", JVal.num 9)], [("count", JVal.num 0)],
           [("count", JVal.num 5)], [("count", JVal.num 9)]] a k w)
          fd (JVal.ref 3) = some (tdef, Adef)) ∧
      (∀ a ∈ A2, ∀ k w,
        readT (heapWrite
          [[("count", JVal.num 0)], [("count", JVal.num 5)],
           [("count", JVal.num 9)], [("count", JVal.num 0)],
           [("count", JVal.num 5)], [("count", JVal.num 9)]] a k w)
          fe (JVal.ref 4) = some (t1, A1) ∧
        readT (heapWrite
          [[("count", JVal.num 0)], [("count", JVal.num 5)],
           [("count", JVal.num 9)], [("count", JVal.num 0)],
           [("count", JVal.num 5)], [("count", JVal.num 9)]] a k w)
          fd (JVal.ref 3) = some (tdef, Adef)) :=
  options_deep_copied
    [[("count", JVal.num 0)], [("count", JVal.num 5)],
     [("count", JVal.num 9)]]
    (JVal.ref 0) (JVal.ref 1) (JVal.ref 2)
    (JVal.ref 3) (JVal.ref 4) (JVal.ref 5)
    [[("count", JVal.num 0)], [("count", JVal.num 5)],
     [("count", JVal.num 9)], [("count", JVal.num 0)]]
    [[("count", JVal.num 0)], [("count", JVal.num 5)],
     [("count", JVal.num 9)], [("count", JVal.num 0)],
     [("count", JVal.num 5)]]
    [[("count", JVal.num 0)], [("count", JVal.num 5)],
     [("count", JVal.num 9)], [("count", JVal.num 0)],
     [("count", JVal.num 5)], [("count", JVal.num 9)]]
    2 3 3
    (JTree.obj (JFields.cons "count" (JTree.num 0) JFields.nil)) [0]
    rfl rfl rfl rfl

end JQueryMvc
